import Mathlib

/-!
Shallow embedding of the expert-system core (`src/rule.rs`): the boolean
condition language (AST, recursive-descent parser, renderer) and the
forward-chaining inference engine (working memory, `step_forward`, `deduce`).
Machine strings are Lean `String`s; the mutable `Peekable<Chars>` iterator is
modelled as an explicit remaining `List Char`; the `&mut self` working memory
is explicit state passing on `List String`.  The mutually recursive parser and
the unbounded `while` loop of `deduce` take a fuel parameter large enough that
it is never exhausted on the inputs the theorems speak about.
-/

namespace Expert

/-- Characters allowed in a fact token.  Rust: `c.is_alphanumeric() || c == '_'`
(the grammar documents fact tokens as `[A-Za-z0-9_]+`; we use ASCII
alphanumerics). -/
def factChar (c : Char) : Bool := c.isAlphanum || c == '_'

/-- The condition AST (Rust `enum Condition`): fact atoms combined with
AND / OR / NOT. -/
inductive Condition : Type where
  | Fact : String → Condition
  | And : Condition → Condition → Condition
  | Or : Condition → Condition → Condition
  | Not : Condition → Condition
  deriving DecidableEq, Repr

/-- `Condition::matches`: evaluate a condition tree against the current list of
known facts (Rust `facts.contains(obj)` on a `Vec<String>`). -/
def Condition.matches : Condition → List String → Bool
  | .Fact obj, facts => facts.contains obj
  | .And lhs rhs, facts => lhs.matches facts && rhs.matches facts
  | .Or lhs rhs, facts => lhs.matches facts || rhs.matches facts
  | .Not inner, facts => !(inner.matches facts)

/-- Rust `struct Rule { condition, output }`. -/
structure Rule where
  condition : Condition
  output : List String
  deriving DecidableEq, Repr

namespace Facts

/-- `Facts::new` / `From<Vec<String>>`: working memory is seeded with exactly
the caller-supplied sequence (no deduplication happens here). -/
def new (seed : List String) : List String := seed

/-- `Facts::recall` (primed: `recall` is taken by Mathlib): membership test. -/
def recall' (fs : List String) (fact : String) : Bool := fs.any (fun x => x == fact)

/-- `Facts::remember`: add a fact unless already present; report whether it was
new.  The `Vec::push` becomes appending at the end. -/
def remember (fs : List String) (fact : String) : Bool × List String :=
  if recall' fs fact then (false, fs) else (true, fs ++ [fact])

/-- `rule.output.iter().any(|fact| self.remember(fact))`: Rust `Iterator::any`
short-circuits, so iteration stops at the first output fact that was newly
added; later outputs are not attempted in this cycle. -/
def rememberAny : List String → List String → Bool × List String
  | fs, [] => (false, fs)
  | fs, fact :: rest =>
    match remember fs fact with
    | (true, fs₂) => (true, fs₂)
    | (false, fs₂) => rememberAny fs₂ rest

/-- `Facts::step_forward`: one cycle over the rule list, in order, each
condition evaluated against the working memory as mutated so far; returns
whether any fact was newly added, plus the updated memory. -/
def step_forward : List String → List Rule → Bool × List String
  | fs, [] => (false, fs)
  | fs, r :: rs =>
    if r.condition.matches fs then
      match rememberAny fs r.output with
      | (matched, fs₂) =>
        match step_forward fs₂ rs with
        | (any, fs₃) => (matched || any, fs₃)
    else step_forward fs rs

/-- All output facts mentioned across the rule list (with repetitions). -/
def outputFacts (rules : List Rule) : List String := (rules.map Rule.output).flatten

/-- The `while self.step_forward(rules)` loop of `Facts::deduce`, with fuel;
returns the number of successful cycles and the final memory. -/
def deduceAux : Nat → List String → List Rule → Nat × List String
  | 0, fs, _ => (0, fs)
  | n + 1, fs, rules =>
    match step_forward fs rules with
    | (true, fs₂) =>
      match deduceAux n fs₂ rules with
      | (steps, fs₃) => (steps + 1, fs₃)
    | (false, fs₂) => (0, fs₂)

/-- `Facts::deduce`: iterate `step_forward` to the fixpoint.  The fuel
`|outputFacts| + 1` is provably sufficient (each successful cycle adds at
least one output fact not previously present). -/
def deduce (fs : List String) (rules : List Rule) : Nat × List String :=
  deduceAux ((outputFacts rules).length + 1) fs rules

end Facts

/-- `skip_whitespace`: drop leading whitespace from the remaining input. -/
def skip_whitespace : List Char → List Char
  | [] => []
  | c :: cs => if c.isWhitespace then skip_whitespace cs else c :: cs

/-- `parse_fact`: take the maximal alphanumeric/underscore prefix; error if it
is empty. -/
def parse_fact (cs : List Char) : Except String (Condition × List Char) :=
  let obj := cs.takeWhile factChar
  if obj.isEmpty then .error "Expected fact"
  else .ok (.Fact (String.mk obj), cs.dropWhile factChar)

mutual

/-- `parse_or`: an `and`-level expression followed by zero or more `| and`. -/
def parse_or : Nat → List Char → Except String (Condition × List Char)
  | 0, _ => .error "fuel exhausted"
  | n + 1, cs =>
    match parse_and n cs with
    | .error e => .error e
    | .ok (lhs, rest) => or_loop n lhs rest

/-- The `while` loop of `parse_or`: skip whitespace, then consume `| and`
while the next character is `|`. -/
def or_loop : Nat → Condition → List Char → Except String (Condition × List Char)
  | 0, _, _ => .error "fuel exhausted"
  | n + 1, lhs, cs =>
    match skip_whitespace cs with
    | '|' :: cs₂ =>
      match parse_and n cs₂ with
      | .error e => .error e
      | .ok (rhs, rest) => or_loop n (.Or lhs rhs) rest
    | cs₁ => .ok (lhs, cs₁)

/-- `parse_and`: a `not`-level expression followed by zero or more `& not`. -/
def parse_and : Nat → List Char → Except String (Condition × List Char)
  | 0, _ => .error "fuel exhausted"
  | n + 1, cs =>
    match parse_not n cs with
    | .error e => .error e
    | .ok (lhs, rest) => and_loop n lhs rest

/-- The `while` loop of `parse_and`. -/
def and_loop : Nat → Condition → List Char → Except String (Condition × List Char)
  | 0, _, _ => .error "fuel exhausted"
  | n + 1, lhs, cs =>
    match skip_whitespace cs with
    | '&' :: cs₂ =>
      match parse_not n cs₂ with
      | .error e => .error e
      | .ok (rhs, rest) => and_loop n (.And lhs rhs) rest
    | cs₁ => .ok (lhs, cs₁)

/-- `parse_not`: `!` is consumed right-recursively; otherwise fall through to
the primary level. -/
def parse_not : Nat → List Char → Except String (Condition × List Char)
  | 0, _ => .error "fuel exhausted"
  | n + 1, cs =>
    match skip_whitespace cs with
    | '!' :: cs₂ =>
      match parse_not n cs₂ with
      | .error e => .error e
      | .ok (inner, rest) => .ok (.Not inner, rest)
    | cs₁ => parse_primary n cs₁

/-- `parse_primary`: a parenthesised `or`-level expression or a bare fact;
errors on exhausted input and on an unclosed parenthesis. -/
def parse_primary : Nat → List Char → Except String (Condition × List Char)
  | 0, _ => .error "fuel exhausted"
  | n + 1, cs =>
    match skip_whitespace cs with
    | '(' :: cs₂ =>
      match parse_or n cs₂ with
      | .error e => .error e
      | .ok (inner, rest) =>
        match skip_whitespace rest with
        | ')' :: rest₂ => .ok (inner, rest₂)
        | _ => .error "Expected ')'"
    | [] => .error "Unexpected end of input"
    | cs₁ => parse_fact cs₁

end

/-- `FromStr for Condition`: run `parse_or` on the character stream and discard
whatever input remains.  The fuel is ample for the input's length. -/
def from_str (s : String) : Except String Condition :=
  match parse_or (9 * s.length + 9) s.data with
  | .ok (c, _) => .ok c
  | .error e => .error e

/-- `Display for Condition`: explicit parentheses around every AND/OR, prefix
`!` for NOT, bare fact names for atoms. -/
def render : Condition → List Char
  | .Fact fact => fact.data
  | .And lhs rhs => '(' :: (render lhs ++ ' ' :: '&' :: ' ' :: (render rhs ++ [')']))
  | .Or lhs rhs => '(' :: (render lhs ++ ' ' :: '|' :: ' ' :: (render rhs ++ [')']))
  | .Not inner => '!' :: render inner

/-- `Condition::to_string` via `Display`. -/
def Condition.asString (c : Condition) : String := String.mk (render c)

/-- Node count of a condition tree. -/
def size : Condition → Nat
  | .Fact _ => 1
  | .And lhs rhs => 1 + size lhs + size rhs
  | .Or lhs rhs => 1 + size lhs + size rhs
  | .Not inner => 1 + size inner

/-- A syntactically valid tree: every atom is a non-empty string of
alphanumeric/underscore characters. -/
def validCond : Condition → Bool
  | .Fact s => !s.data.isEmpty && s.data.all factChar
  | .And lhs rhs => validCond lhs && validCond rhs
  | .Or lhs rhs => validCond lhs && validCond rhs
  | .Not inner => validCond inner

/-- Remaining input that cannot extend a fact token: empty, or starting with a
character that is not alphanumeric/underscore. -/
def boundary : List Char → Prop
  | [] => True
  | h :: _ => factChar h = false

end Expert

deriving instance DecidableEq for Except

namespace Expert

/-! ## Growth lemmas: working memory never loses a fact -/

theorem mem_remember (fs : List String) (f x : String) (h : x ∈ fs) :
    x ∈ (Facts.remember fs f).2 := by
  unfold Facts.remember
  split
  · exact h
  · simp [List.mem_append, h]

theorem mem_rememberAny (out : List String) :
    ∀ fs x, x ∈ fs → x ∈ (Facts.rememberAny fs out).2 := by
  induction out with
  | nil => intro fs x h; simpa [Facts.rememberAny] using h
  | cons f rest ih =>
    intro fs x h
    simp only [Facts.rememberAny]
    rcases hrem : Facts.remember fs f with ⟨b, fs₂⟩
    have hx : x ∈ fs₂ := by
      have := mem_remember fs f x h
      rw [hrem] at this
      exact this
    cases b
    · simpa using ih fs₂ x hx
    · simpa using hx

theorem mem_step_forward (rules : List Rule) :
    ∀ fs x, x ∈ fs → x ∈ (Facts.step_forward fs rules).2 := by
  induction rules with
  | nil => intro fs x h; simpa [Facts.step_forward] using h
  | cons r rs ih =>
    intro fs x h
    simp only [Facts.step_forward]
    split
    · rcases hra : Facts.rememberAny fs r.output with ⟨m, fs₂⟩
      have hx₂ : x ∈ fs₂ := by
        have := mem_rememberAny r.output fs x h
        rw [hra] at this
        exact this
      rcases hsf : Facts.step_forward fs₂ rs with ⟨a, fs₃⟩
      have hx₃ : x ∈ fs₃ := by
        have := ih fs₂ x hx₂
        rw [hsf] at this
        exact this
      simpa [hsf] using hx₃
    · exact ih fs x h

theorem mem_deduceAux (rules : List Rule) :
    ∀ n fs x, x ∈ fs → x ∈ (Facts.deduceAux n fs rules).2 := by
  intro n
  induction n with
  | zero => intro fs x h; simpa [Facts.deduceAux] using h
  | succ n ih =>
    intro fs x h
    simp only [Facts.deduceAux]
    rcases hsf : Facts.step_forward fs rules with ⟨c, fs₂⟩
    have hx₂ : x ∈ fs₂ := by
      have := mem_step_forward rules fs x h
      rw [hsf] at this
      exact this
    cases c
    · simpa using hx₂
    · rcases hda : Facts.deduceAux n fs₂ rules with ⟨k, fs₃⟩
      have hx₃ : x ∈ fs₃ := by
        have := ih fs₂ x hx₂
        rw [hda] at this
        exact this
      simpa [hda] using hx₃

/-! ## Characterisation of `remember`, `rememberAny`, `step_forward` -/

theorem recall'_iff (fs : List String) (f : String) : Facts.recall' fs f = true ↔ f ∈ fs := by
  simp only [Facts.recall', List.any_eq_true, beq_iff_eq]
  exact ⟨fun ⟨x, hx, e⟩ => e ▸ hx, fun h => ⟨f, h, rfl⟩⟩

theorem remember_cases (fs : List String) (f : String) :
    (Facts.remember fs f = (false, fs) ∧ f ∈ fs) ∨
    (Facts.remember fs f = (true, fs ++ [f]) ∧ f ∉ fs) := by
  unfold Facts.remember
  by_cases h : Facts.recall' fs f = true
  · exact .inl ⟨by simp [h], (recall'_iff fs f).1 h⟩
  · exact .inr ⟨by simp [h], fun hm => h ((recall'_iff fs f).2 hm)⟩

theorem rememberAny_subset (out : List String) :
    ∀ fs x, x ∈ (Facts.rememberAny fs out).2 → x ∈ fs ∨ x ∈ out := by
  induction out with
  | nil => intro fs x h; simp only [Facts.rememberAny] at h; exact .inl h
  | cons f rest ih =>
    intro fs x h
    simp only [Facts.rememberAny] at h
    rcases remember_cases fs f with ⟨he, _⟩ | ⟨he, _⟩ <;> rw [he] at h
    · rcases ih fs x (by simpa using h) with h' | h'
      · exact .inl h'
      · exact .inr (by simp [h'])
    · simp only at h
      rcases List.mem_append.1 h with h' | h'
      · exact .inl h'
      · have hxf : x = f := by simpa using h'
        exact .inr (by subst hxf; exact List.mem_cons_self _ _)

theorem rememberAny_true (out : List String) :
    ∀ fs, (Facts.rememberAny fs out).1 = true →
      ∃ x, x ∈ (Facts.rememberAny fs out).2 ∧ x ∉ fs := by
  induction out with
  | nil => intro fs h; simp [Facts.rememberAny] at h
  | cons f rest ih =>
    intro fs h
    simp only [Facts.rememberAny] at h ⊢
    rcases remember_cases fs f with ⟨he, _⟩ | ⟨he, hnf⟩ <;> rw [he] at h ⊢
    · exact ih fs (by simpa using h)
    · exact ⟨f, by simp, hnf⟩

theorem rememberAny_false (out : List String) :
    ∀ fs, (Facts.rememberAny fs out).1 = false →
      (Facts.rememberAny fs out).2 = fs ∧ ∀ f ∈ out, f ∈ fs := by
  induction out with
  | nil => intro fs _; exact ⟨rfl, by simp⟩
  | cons f rest ih =>
    intro fs h
    simp only [Facts.rememberAny] at h ⊢
    rcases remember_cases fs f with ⟨he, hf⟩ | ⟨he, _⟩ <;> rw [he] at h ⊢
    · rcases ih fs (by simpa using h) with ⟨h₁, h₂⟩
      refine ⟨by simpa using h₁, fun g hg => ?_⟩
      rcases List.mem_cons.1 hg with rfl | hg'
      · exact hf
      · exact h₂ g hg'
    · simp at h

theorem step_forward_subset (rules : List Rule) :
    ∀ fs x, x ∈ (Facts.step_forward fs rules).2 →
      x ∈ fs ∨ x ∈ Facts.outputFacts rules := by
  induction rules with
  | nil => intro fs x h; simp only [Facts.step_forward] at h; exact .inl h
  | cons r rs ih =>
    intro fs x h
    simp only [Facts.step_forward] at h
    split at h
    · rcases hra : Facts.rememberAny fs r.output with ⟨m, fs₂⟩
      rw [hra] at h
      rcases hsf : Facts.step_forward fs₂ rs with ⟨a, fs₃⟩
      rw [hsf] at h
      simp only at h
      have hx₃ : x ∈ fs₃ := h
      rcases ih fs₂ x (by rw [hsf]; exact hx₃) with h' | h'
      · rcases rememberAny_subset r.output fs x (by rw [hra]; exact h') with h'' | h''
        · exact .inl h''
        · refine .inr ?_
          simp [Facts.outputFacts, List.mem_flatten]
          exact .inl h''
      · refine .inr ?_
        simp only [Facts.outputFacts, List.map_cons, List.flatten_cons, List.mem_append]
        right
        simpa [Facts.outputFacts] using h'
    · rcases ih fs x h with h' | h'
      · exact .inl h'
      · refine .inr ?_
        simp only [Facts.outputFacts, List.map_cons, List.flatten_cons, List.mem_append]
        right
        simpa [Facts.outputFacts] using h'

theorem step_forward_true (rules : List Rule) :
    ∀ fs, (Facts.step_forward fs rules).1 = true →
      ∃ x, x ∈ (Facts.step_forward fs rules).2 ∧ x ∉ fs := by
  induction rules with
  | nil => intro fs h; simp [Facts.step_forward] at h
  | cons r rs ih =>
    intro fs h
    simp only [Facts.step_forward] at h ⊢
    split at h <;> rename_i hmatch
    · rcases hra : Facts.rememberAny fs r.output with ⟨m, fs₂⟩
      rw [hra] at h
      rcases hsf : Facts.step_forward fs₂ rs with ⟨a, fs₃⟩
      rw [hsf] at h
      simp only [Bool.or_eq_true] at h
      simp only [hmatch, if_true, hra, hsf]
      rcases h with hm | ha
      · rcases rememberAny_true r.output fs (by rw [hra]; exact hm) with ⟨x, hx₂, hxf⟩
        rw [hra] at hx₂
        have hx₃ : x ∈ fs₃ := by
          have := mem_step_forward rs fs₂ x hx₂
          rw [hsf] at this
          exact this
        exact ⟨x, hx₃, hxf⟩
      · rcases ih fs₂ (by rw [hsf]; exact ha) with ⟨x, hx₃, hxf₂⟩
        rw [hsf] at hx₃
        refine ⟨x, hx₃, fun hxf => hxf₂ ?_⟩
        have := mem_rememberAny r.output fs x hxf
        rw [hra] at this
        exact this
    · simp only [hmatch, if_false]
      exact ih fs h

theorem step_forward_false (rules : List Rule) :
    ∀ fs, (Facts.step_forward fs rules).1 = false → (Facts.step_forward fs rules).2 = fs := by
  induction rules with
  | nil => intro fs _; rfl
  | cons r rs ih =>
    intro fs h
    simp only [Facts.step_forward] at h ⊢
    split at h <;> rename_i hmatch
    · rcases hra : Facts.rememberAny fs r.output with ⟨m, fs₂⟩
      rw [hra] at h
      rcases hsf : Facts.step_forward fs₂ rs with ⟨a, fs₃⟩
      rw [hsf] at h
      simp only [Bool.or_eq_false_iff] at h
      have hfs₂ : fs₂ = fs := by
        have := (rememberAny_false r.output fs (by rw [hra]; exact h.1)).1
        rw [hra] at this
        exact this
      have hfs₃ : fs₃ = fs₂ := by
        have := ih fs₂ (by rw [hsf]; exact h.2)
        rw [hsf] at this
        exact this
      simp only [hmatch, if_true, hra, hsf]
      rw [hfs₃, hfs₂]
    · simp only [hmatch, if_false]
      exact ih fs h

/-! ## Termination measure for `deduce` -/

/-- Fact names mentioned in a condition. -/
def condNames : Condition → List String
  | .Fact s => [s]
  | .And lhs rhs => condNames lhs ++ condNames rhs
  | .Or lhs rhs => condNames lhs ++ condNames rhs
  | .Not inner => condNames inner

/-- All fact names mentioned across the rules' conditions and outputs. -/
def allNames (rules : List Rule) : List String :=
  (rules.map (fun r => condNames r.condition ++ r.output)).flatten

/-- Output facts not yet in working memory: strictly decreases across every
successful cycle. -/
def missing (rules : List Rule) (fs : List String) : Finset String :=
  (Facts.outputFacts rules).toFinset.filter (fun f => f ∉ fs)

theorem missing_card_lt (rules : List Rule) (fs : List String)
    (h : (Facts.step_forward fs rules).1 = true) :
    (missing rules (Facts.step_forward fs rules).2).card < (missing rules fs).card := by
  rcases step_forward_true rules fs h with ⟨x, hx, hxf⟩
  have hsub : missing rules (Facts.step_forward fs rules).2 ⊆ missing rules fs := by
    intro g hg
    simp only [missing, Finset.mem_filter, List.mem_toFinset] at hg ⊢
    exact ⟨hg.1, fun hm => hg.2 (mem_step_forward rules fs g hm)⟩
  refine Finset.card_lt_card ((Finset.ssubset_iff_of_subset hsub).2 ⟨x, ?_, ?_⟩)
  · simp only [missing, Finset.mem_filter, List.mem_toFinset]
    rcases step_forward_subset rules fs x hx with h' | h'
    · exact absurd h' hxf
    · exact ⟨h', hxf⟩
  · simp only [missing, Finset.mem_filter, List.mem_toFinset]
    exact fun hmem => hmem.2 hx

theorem deduceAux_count_le (rules : List Rule) :
    ∀ n fs, (Facts.deduceAux n fs rules).1 ≤ (missing rules fs).card := by
  intro n
  induction n with
  | zero => intro fs; simp [Facts.deduceAux]
  | succ n ih =>
    intro fs
    rcases hsf : Facts.step_forward fs rules with ⟨c, fs₂⟩
    simp only [Facts.deduceAux, hsf]
    cases c
    · simp
    · rcases hda : Facts.deduceAux n fs₂ rules with ⟨k, fs₃⟩
      simp only [hda]
      have hlt : (missing rules fs₂).card < (missing rules fs).card := by
        have := missing_card_lt rules fs (by rw [hsf])
        rw [hsf] at this
        exact this
      have hk : k ≤ (missing rules fs₂).card := by
        have := ih fs₂
        rw [hda] at this
        exact this
      omega

theorem deduceAux_fixpoint (rules : List Rule) :
    ∀ n fs, (missing rules fs).card < n →
      (Facts.step_forward (Facts.deduceAux n fs rules).2 rules).1 = false := by
  intro n
  induction n with
  | zero => intro fs h; omega
  | succ n ih =>
    intro fs h
    rcases hsf : Facts.step_forward fs rules with ⟨c, fs₂⟩
    simp only [Facts.deduceAux, hsf]
    cases c
    · have hfs₂ : fs₂ = fs := by
        have := step_forward_false rules fs (by rw [hsf])
        rw [hsf] at this
        exact this
      simp only
      rw [hfs₂, hsf]
    · rcases hda : Facts.deduceAux n fs₂ rules with ⟨k, fs₃⟩
      simp only [hda]
      have hlt : (missing rules fs₂).card < (missing rules fs).card := by
        have := missing_card_lt rules fs (by rw [hsf])
        rw [hsf] at this
        exact this
      have := ih fs₂ (by omega)
      rw [hda] at this
      exact this

theorem outputFacts_subset_allNames (rules : List Rule) :
    ∀ x ∈ Facts.outputFacts rules, x ∈ allNames rules := by
  intro x hx
  simp only [Facts.outputFacts, List.mem_flatten, List.mem_map] at hx
  rcases hx with ⟨l, ⟨r, hr, rfl⟩, hxl⟩
  simp only [allNames, List.mem_flatten, List.mem_map]
  exact ⟨condNames r.condition ++ r.output, ⟨r, hr, rfl⟩, List.mem_append.2 (.inr hxl)⟩

/-- The fuel of `deduce` is sufficient: the returned memory is a fixpoint of
`step_forward`. -/
theorem deduce_reaches_fixpoint (init : List String) (rules : List Rule) :
    (Facts.step_forward (Facts.deduce init rules).2 rules).1 = false := by
  refine deduceAux_fixpoint rules _ init ?_
  have h₂ : (missing rules init).card ≤ (Facts.outputFacts rules).toFinset.card :=
    Finset.card_filter_le _ _
  have h₅ : (Facts.outputFacts rules).toFinset.card
      = (Facts.outputFacts rules).dedup.length := List.card_toFinset _
  have h₆ : (Facts.outputFacts rules).dedup.length ≤ (Facts.outputFacts rules).length :=
    (List.dedup_sublist _).length_le
  omega

/-! ## Order-independence machinery (negation-free conditions) -/

/-- A condition with no NOT node; only these evaluate monotonically in the
fact set. -/
def notFree : Condition → Bool
  | .Fact _ => true
  | .And lhs rhs => notFree lhs && notFree rhs
  | .Or lhs rhs => notFree lhs && notFree rhs
  | .Not _ => false

theorem contains_iff (fs : List String) (s : String) : fs.contains s = true ↔ s ∈ fs := by
  simp [List.contains]

theorem matches_mono (c : Condition) :
    ∀ fs fs', notFree c = true → (∀ x ∈ fs, x ∈ fs') →
      c.matches fs = true → c.matches fs' = true := by
  induction c with
  | Fact s =>
    intro fs fs' _ hsub h
    simp only [Condition.matches] at h ⊢
    exact (contains_iff fs' s).2 (hsub s ((contains_iff fs s).1 h))
  | And lhs rhs ihl ihr =>
    intro fs fs' hnf hsub h
    simp only [notFree, Bool.and_eq_true] at hnf
    simp only [Condition.matches, Bool.and_eq_true] at h ⊢
    exact ⟨ihl fs fs' hnf.1 hsub h.1, ihr fs fs' hnf.2 hsub h.2⟩
  | Or lhs rhs ihl ihr =>
    intro fs fs' hnf hsub h
    simp only [notFree, Bool.and_eq_true] at hnf
    simp only [Condition.matches, Bool.or_eq_true] at h ⊢
    rcases h with h | h
    · exact .inl (ihl fs fs' hnf.1 hsub h)
    · exact .inr (ihr fs fs' hnf.2 hsub h)
  | Not inner ih =>
    intro fs fs' hnf
    simp [notFree] at hnf

/-- A memory is closed under a rule list when every matching rule's outputs
are already present. -/
def Closed (rules : List Rule) (fs : List String) : Prop :=
  ∀ r ∈ rules, r.condition.matches fs = true → ∀ f ∈ r.output, f ∈ fs

theorem closed_of_step_false (rules : List Rule) :
    ∀ fs, (Facts.step_forward fs rules).1 = false → Closed rules fs := by
  induction rules with
  | nil => intro fs _ r hr; simp at hr
  | cons r rs ih =>
    intro fs h
    simp only [Facts.step_forward] at h
    split at h <;> rename_i hmatch
    · rcases hra : Facts.rememberAny fs r.output with ⟨m, fs₂⟩
      rw [hra] at h
      rcases hsf : Facts.step_forward fs₂ rs with ⟨a, fs₃⟩
      rw [hsf] at h
      simp only [Bool.or_eq_false_iff] at h
      rcases rememberAny_false r.output fs (by rw [hra]; exact h.1) with ⟨hfs₂, hout⟩
      rw [hra] at hfs₂
      simp only at hfs₂
      subst hfs₂
      intro r' hr' hm f hf
      rcases List.mem_cons.1 hr' with rfl | hr''
      · exact hout f hf
      · exact ih fs₂ (by rw [hsf]; exact h.2) r' hr'' hm f hf
    · intro r' hr' hm f hf
      rcases List.mem_cons.1 hr' with rfl | hr''
      · exact absurd hm (by simpa using hmatch)
      · exact ih fs h r' hr'' hm f hf

theorem step_forward_subset_closed (rules : List Rule) (U : List String)
    (hC : Closed rules U) (hNF : ∀ r ∈ rules, notFree r.condition = true) :
    ∀ fs, (∀ x ∈ fs, x ∈ U) → ∀ x ∈ (Facts.step_forward fs rules).2, x ∈ U := by
  induction rules with
  | nil => intro fs hsub x hx; simp only [Facts.step_forward] at hx; exact hsub x hx
  | cons r rs ih =>
    have hC' : Closed rs U := fun r' hr' => hC r' (List.mem_cons.2 (.inr hr'))
    have hNF' : ∀ r' ∈ rs, notFree r'.condition = true :=
      fun r' hr' => hNF r' (List.mem_cons.2 (.inr hr'))
    intro fs hsub x hx
    simp only [Facts.step_forward] at hx
    split at hx <;> rename_i hmatch
    · rcases hra : Facts.rememberAny fs r.output with ⟨m, fs₂⟩
      rw [hra] at hx
      rcases hsf : Facts.step_forward fs₂ rs with ⟨a, fs₃⟩
      rw [hsf] at hx
      simp only at hx
      have hmU : r.condition.matches U = true :=
        matches_mono r.condition fs U (hNF r (List.mem_cons.2 (.inl rfl))) hsub hmatch
      have houtU : ∀ f ∈ r.output, f ∈ U := hC r (List.mem_cons.2 (.inl rfl)) hmU
      have hfs₂U : ∀ y ∈ fs₂, y ∈ U := by
        intro y hy
        rcases rememberAny_subset r.output fs y (by rw [hra]; exact hy) with h' | h'
        · exact hsub y h'
        · exact houtU y h'
      have := ih hC' hNF' fs₂ hfs₂U x (by rw [hsf]; exact hx)
      exact this
    · exact ih hC' hNF' fs hsub x hx

theorem deduceAux_subset_closed (rules : List Rule) (U : List String)
    (hC : Closed rules U) (hNF : ∀ r ∈ rules, notFree r.condition = true) :
    ∀ n fs, (∀ x ∈ fs, x ∈ U) → ∀ x ∈ (Facts.deduceAux n fs rules).2, x ∈ U := by
  intro n
  induction n with
  | zero => intro fs hsub x hx; simpa [Facts.deduceAux] using hsub x (by simpa [Facts.deduceAux] using hx)
  | succ n ih =>
    intro fs hsub x hx
    rcases hsf : Facts.step_forward fs rules with ⟨c, fs₂⟩
    simp only [Facts.deduceAux, hsf] at hx
    have hfs₂U : ∀ y ∈ fs₂, y ∈ U := by
      intro y hy
      exact step_forward_subset_closed rules U hC hNF fs hsub y (by rw [hsf]; exact hy)
    cases c
    · exact hfs₂U x (by simpa using hx)
    · have hx' : x ∈ (Facts.deduceAux n fs₂ rules).2 := by simpa using hx
      exact ih fs₂ hfs₂U x hx'

/-! ## Claim theorems (concrete) -/

/-- C1: the claim says a matched rule adds each of its output facts within the
cycle.  The code's `rule.output.iter().any(|fact| self.remember(fact))`
short-circuits at the first newly added fact: on memory `[fact1]` and the
single rule `fact1 → [fact2, fact3]`, one `step_forward` cycle adds `fact2`
but not `fact3`, even though the rule matched and `fact3` is among its
outputs.  (The return value is still true iff at least one fact was added.) -/
theorem step_forward_stops_at_first_new_output :
    Facts.step_forward ["fact1"] [⟨.Fact "fact1", ["fact2", "fact3"]⟩]
      = (true, ["fact1", "fact2"]) ∧
    "fact3" ∉ (Facts.step_forward ["fact1"] [⟨.Fact "fact1", ["fact2", "fact3"]⟩]).2 := by
  decide

/-- C2 counterexample: with rules `[fact1→fact2, fact2→fact3, fact4→fact5]`
and initial facts `[fact1]`, `deduce` returns 1 cycle, not 2: `fact2` is
added by the first rule and is immediately visible to the second rule in the
same cycle, which adds `fact3`; the second cycle adds nothing. -/
theorem scenario1_cycle_count_is_not_two :
    ¬ (Facts.deduce ["fact1"]
        [⟨.Fact "fact1", ["fact2"]⟩, ⟨.Fact "fact2", ["fact3"]⟩,
         ⟨.Fact "fact4", ["fact5"]⟩]).1 = 2 := by
  decide

/-- C2 (amended): the same scenario terminates with working memory
`[fact1, fact2, fact3]` (so `fact5` is absent) and a cycle count of exactly
1; the subsequent cycle adds nothing (the fixpoint is reached). -/
theorem scenario1_result :
    Facts.deduce ["fact1"]
        [⟨.Fact "fact1", ["fact2"]⟩, ⟨.Fact "fact2", ["fact3"]⟩,
         ⟨.Fact "fact4", ["fact5"]⟩]
      = (1, ["fact1", "fact2", "fact3"]) ∧
    "fact5" ∉ (Facts.deduce ["fact1"]
        [⟨.Fact "fact1", ["fact2"]⟩, ⟨.Fact "fact2", ["fact3"]⟩,
         ⟨.Fact "fact4", ["fact5"]⟩]).2 ∧
    (Facts.step_forward ["fact1", "fact2", "fact3"]
        [⟨.Fact "fact1", ["fact2"]⟩, ⟨.Fact "fact2", ["fact3"]⟩,
         ⟨.Fact "fact4", ["fact5"]⟩]).1 = false := by
  decide

/-- C3 counterexample: seeding working memory from the sequence `[a, a]`
(`Facts::new` / `From<Vec<String>>` store the caller's vector verbatim)
yields a memory containing `a` twice, not exactly once. -/
theorem seed_duplicates_not_collapsed :
    (Facts.new ["a", "a"]).count "a" = 2 ∧
    ¬ (Facts.new ["a", "a"]).count "a" = 1 := by
  decide

/-- C3 (amended): seeding stores the caller-supplied sequence verbatim —
duplicates in the seed are preserved, and each fact occurs in the seeded
working memory exactly as many times as in the seed. -/
theorem seed_stored_verbatim (seed : List String) :
    Facts.new seed = seed ∧ ∀ f, (Facts.new seed).count f = seed.count f := by
  exact ⟨rfl, fun _ => rfl⟩

/-- C5: `deduce` terminates — the fixpoint is reached: one more `step_forward`
on the final memory adds nothing — and the returned number of successful
cycles is at most `k`, the number of distinct fact names mentioned across all
conditions and outputs of the rule list.  (Each successful cycle adds at
least one output fact not previously present, so the count is bounded by the
distinct output names, a subset of the `k` names.) -/
theorem deduce_cycle_bound (init : List String) (rules : List Rule) :
    (Facts.deduce init rules).1 ≤ ((allNames rules).dedup).length ∧
    (Facts.step_forward (Facts.deduce init rules).2 rules).1 = false := by
  constructor
  · have h₁ : (Facts.deduce init rules).1 ≤ (missing rules init).card :=
      deduceAux_count_le rules _ init
    have h₂ : (missing rules init).card ≤ (Facts.outputFacts rules).toFinset.card :=
      Finset.card_filter_le _ _
    have h₃ : (Facts.outputFacts rules).toFinset.card ≤ (allNames rules).toFinset.card := by
      refine Finset.card_le_card fun x hx => ?_
      simp only [List.mem_toFinset] at hx ⊢
      exact outputFacts_subset_allNames rules x hx
    have h₄ : (allNames rules).toFinset.card = (allNames rules).dedup.length :=
      List.card_toFinset _
    omega
  · exact deduce_reaches_fixpoint init rules

/-- C6 counterexample: rule order can change the final fact set when a
condition contains NOT.  With rules `[!fact2 → fact3, fact1 → fact2]` and
initial facts `[fact1]`, the first order derives `fact3` (the NOT rule fires
before `fact2` appears); the swapped order derives `fact2` first, so the NOT
rule never fires and `fact3` is absent.  The two rule lists are permutations
of one another. -/
theorem deduce_not_order_independent :
    List.Perm
      [Rule.mk (.Not (.Fact "fact2")) ["fact3"], Rule.mk (.Fact "fact1") ["fact2"]]
      [Rule.mk (.Fact "fact1") ["fact2"], Rule.mk (.Not (.Fact "fact2")) ["fact3"]] ∧
    "fact3" ∈ (Facts.deduce ["fact1"]
      [Rule.mk (.Not (.Fact "fact2")) ["fact3"], Rule.mk (.Fact "fact1") ["fact2"]]).2 ∧
    "fact3" ∉ (Facts.deduce ["fact1"]
      [Rule.mk (.Fact "fact1") ["fact2"], Rule.mk (.Not (.Fact "fact2")) ["fact3"]]).2 :=
  ⟨List.Perm.swap _ _ _, by decide, by decide⟩

/-- C6 (amended): for rule lists whose conditions are negation-free, `deduce`
reaches the same final working-memory fact set (equal as sets) under every
permutation of the rule list; with NOT conditions this can fail. -/
theorem deduce_perm_same_final_set (rules rules' : List Rule) (init : List String)
    (hperm : List.Perm rules rules')
    (hNF : ∀ r ∈ rules, notFree r.condition = true) :
    ∀ x, x ∈ (Facts.deduce init rules).2 ↔ x ∈ (Facts.deduce init rules').2 := by
  have hNF' : ∀ r ∈ rules', notFree r.condition = true :=
    fun r hr => hNF r (hperm.mem_iff.2 hr)
  have dir : ∀ (rl rl' : List Rule), List.Perm rl rl' →
      (∀ r ∈ rl, notFree r.condition = true) →
      ∀ x, x ∈ (Facts.deduce init rl).2 → x ∈ (Facts.deduce init rl').2 := by
    intro rl rl' hp hnf x hx
    have hfix : (Facts.step_forward (Facts.deduce init rl').2 rl').1 = false :=
      deduce_reaches_fixpoint init rl'
    have hclosed' : Closed rl' (Facts.deduce init rl').2 :=
      closed_of_step_false rl' _ hfix
    have hclosed : Closed rl (Facts.deduce init rl').2 :=
      fun r hr => hclosed' r (hp.mem_iff.1 hr)
    have hinit : ∀ y ∈ init, y ∈ (Facts.deduce init rl').2 :=
      fun y hy => mem_deduceAux rl' _ init y hy
    exact deduceAux_subset_closed rl (Facts.deduce init rl').2 hclosed hnf _ init hinit x hx
  exact fun x => ⟨dir rules rules' hperm hNF x, dir rules' rules hperm.symm hNF' x⟩

/-- Witness for C6 (amended) at a concrete input: swapping two negation-free
rules preserves the final fact set membership. -/
theorem deduce_perm_same_final_set_witness :
    "fact3" ∈ (Facts.deduce ["fact1"]
      [Rule.mk (.Fact "fact2") ["fact3"], Rule.mk (.Fact "fact1") ["fact2"]]).2 ↔
    "fact3" ∈ (Facts.deduce ["fact1"]
      [Rule.mk (.Fact "fact1") ["fact2"], Rule.mk (.Fact "fact2") ["fact3"]]).2 :=
  deduce_perm_same_final_set
    [Rule.mk (.Fact "fact2") ["fact3"], Rule.mk (.Fact "fact1") ["fact2"]]
    [Rule.mk (.Fact "fact1") ["fact2"], Rule.mk (.Fact "fact2") ["fact3"]]
    ["fact1"] (List.Perm.swap _ _ _) (by decide) "fact3"

/-- C7: precedence and associativity of the parser: AND binds tighter than OR,
AND chains are left-nested, and NOT binds tighter than AND. -/
theorem parser_precedence :
    from_str "a | b & c" = .ok (.Or (.Fact "a") (.And (.Fact "b") (.Fact "c"))) ∧
    from_str "a & b & c" = .ok (.And (.And (.Fact "a") (.Fact "b")) (.Fact "c")) ∧
    from_str "!a & b" = .ok (.And (.Not (.Fact "a")) (.Fact "b")) := by
  decide

/-- C8: the three malformed inputs fail with a parse error of the kind
specified in §7 of the spec (`ExpectedFact` is the `"Expected fact"` error,
`UnexpectedEnd` is `"Unexpected end of input"`, `UnclosedParen` is
`"Expected ')'"`); no panic and no default condition. -/
theorem parse_error_kinds :
    from_str "& fact" = .error "Expected fact" ∧
    from_str "fact1 &" = .error "Unexpected end of input" ∧
    from_str "(fact1 & fact2" = .error "Expected ')'" := by
  decide

/-- C10: `FromStr` does not require the whole input to be consumed: whenever
the recursive descent succeeds on a leading expression, `from_str` returns it
and silently discards the remaining characters; in particular
`"fact1 fact2"` parses to the atom `fact1` and `"fact1 | fact2) x"` parses to
`fact1 | fact2`. -/
theorem trailing_input_ignored :
    (∀ (s : String) (c : Condition) (rest : List Char),
        parse_or (9 * s.length + 9) s.data = .ok (c, rest) → from_str s = .ok c) ∧
    from_str "fact1 fact2" = .ok (.Fact "fact1") ∧
    from_str "fact1 | fact2) x" = .ok (.Or (.Fact "fact1") (.Fact "fact2")) := by
  refine ⟨fun s c rest h => ?_, by decide, by decide⟩
  simp [from_str, h]

/-- Witness for C10 at a concrete input: `"x y"` parses to the atom `x` with
`" y"` left over. -/
theorem trailing_input_ignored_witness :
    from_str "x y" = .ok (.Fact "x") :=
  trailing_input_ignored.1 "x y" (.Fact "x") ['y'] (by decide)

/-- C9: working memory only grows: after `deduce` it contains every initial
fact, and neither a `step_forward` cycle nor an individual `remember` ever
removes a fact that was present. -/
theorem working_memory_monotone (init : List String) (rules : List Rule) :
    (∀ x ∈ init, x ∈ (Facts.deduce init rules).2) ∧
    (∀ fs x, x ∈ fs → x ∈ (Facts.step_forward fs rules).2) ∧
    (∀ fs f x, x ∈ fs → x ∈ (Facts.remember fs f).2) := by
  refine ⟨fun x hx => mem_deduceAux rules _ init x hx,
          fun fs x hx => mem_step_forward rules fs x hx,
          fun fs f x hx => mem_remember fs f x hx⟩

/-! ## Round-trip machinery -/

theorem factChar_spec (c : Char) (h : factChar c = true) :
    c ≠ ' ' ∧ c ≠ '\t' ∧ c ≠ '\r' ∧ c ≠ '\n' ∧
    c ≠ '!' ∧ c ≠ '(' ∧ c ≠ ')' ∧ c ≠ '&' ∧ c ≠ '|' := by
  refine ⟨?_, ?_, ?_, ?_, ?_, ?_, ?_, ?_, ?_⟩ <;>
    · intro hc
      subst hc
      revert h
      decide

theorem factChar_not_ws (c : Char) (h : factChar c = true) : c.isWhitespace = false := by
  obtain ⟨h1, h2, h3, h4, -⟩ := factChar_spec c h
  simp [Char.isWhitespace, h1, h2, h3, h4]

theorem skipWs_cons_of_not_ws (c : Char) (cs : List Char) (h : c.isWhitespace = false) :
    skip_whitespace (c :: cs) = c :: cs := by
  simp [skip_whitespace, h]

theorem skipWs_idem (cs : List Char) :
    skip_whitespace (skip_whitespace cs) = skip_whitespace cs := by
  induction cs with
  | nil => rfl
  | cons c cs ih =>
    by_cases h : c.isWhitespace
    · simp [skip_whitespace, h, ih]
    · simp [skip_whitespace, h]

theorem render_head_not_ws (c : Condition) (hv : validCond c = true) :
    ∃ h t, render c = h :: t ∧ h.isWhitespace = false := by
  cases c with
  | Fact s =>
    simp only [validCond, Bool.and_eq_true, Bool.not_eq_true'] at hv
    rcases hd : s.data with _ | ⟨h, t⟩
    · rw [hd] at hv; simp at hv
    · refine ⟨h, t, by simp [render, hd], ?_⟩
      have : factChar h = true := by
        have := hv.2
        rw [hd] at this
        simp only [List.all_cons, Bool.and_eq_true] at this
        exact this.1
      exact factChar_not_ws h this
  | And lhs rhs => exact ⟨'(', _, rfl, by decide⟩
  | Or lhs rhs => exact ⟨'(', _, rfl, by decide⟩
  | Not inner => exact ⟨'!', _, rfl, by decide⟩

theorem skipWs_render (c : Condition) (hv : validCond c = true) (rest : List Char) :
    skip_whitespace (render c ++ rest) = render c ++ rest := by
  obtain ⟨h, t, he, hw⟩ := render_head_not_ws c hv
  rw [he]
  exact skipWs_cons_of_not_ws h (t ++ rest) hw

theorem takeWhile_factChar_append (l r : List Char) (hl : l.all factChar = true)
    (hr : boundary r) :
    (l ++ r).takeWhile factChar = l ∧ (l ++ r).dropWhile factChar = r := by
  induction l with
  | nil =>
    cases r with
    | nil => simp
    | cons h t =>
      simp only [boundary] at hr
      simp [List.takeWhile, List.dropWhile, hr]
  | cons c l ih =>
    simp only [List.all_cons, Bool.and_eq_true] at hl
    have := ih hl.2
    simp [List.takeWhile, List.dropWhile, hl.1, this.1, this.2]

theorem parse_fact_render (s : String) (h1 : s.data.isEmpty = false)
    (h2 : s.data.all factChar = true) (rest : List Char) (hb : boundary rest) :
    parse_fact (s.data ++ rest) = .ok (.Fact s, rest) := by
  obtain ⟨ht, hd⟩ := takeWhile_factChar_append s.data rest h2 hb
  have hmk : String.mk s.data = s := rfl
  simp [parse_fact, ht, hd, h1, hmk]

theorem size_pos (c : Condition) : 1 ≤ size c := by
  cases c <;> (simp only [size]; omega)

theorem skipWs_cons_of_ws (c : Char) (cs : List Char) (h : c.isWhitespace = true) :
    skip_whitespace (c :: cs) = skip_whitespace cs := by
  simp [skip_whitespace, h]

theorem parse_not_step_head (f : Nat) (cs : List Char) (h : Char) (t : List Char)
    (hskip : skip_whitespace cs = h :: t) (hh : h ≠ '!') :
    parse_not (f + 1) cs = parse_primary f (h :: t) := by
  simp only [parse_not, hskip]
  split
  · rename_i cs₂ heq
    exact absurd (List.cons.injEq h t '!' cs₂ ▸ heq).1 hh
  · rfl

theorem parse_not_step_bang (f : Nat) (cs cs₂ : List Char) (inner : Condition)
    (rest : List Char) (hskip : skip_whitespace cs = '!' :: cs₂)
    (hrec : parse_not f cs₂ = .ok (inner, rest)) :
    parse_not (f + 1) cs = .ok (.Not inner, rest) := by
  simp only [parse_not, hskip, hrec]

theorem parse_primary_step_fact (f : Nat) (h : Char) (t : List Char)
    (hw : h.isWhitespace = false) (hh : h ≠ '(') :
    parse_primary (f + 1) (h :: t) = parse_fact (h :: t) := by
  simp only [parse_primary, skipWs_cons_of_not_ws h t hw]
  split
  · rename_i cs₂ heq
    exact absurd (List.cons.injEq h t '(' cs₂ ▸ heq).1 hh
  · rename_i heq
    exact absurd heq (List.cons_ne_nil h t)
  · rfl

theorem parse_primary_step_paren (f : Nat) (cs₂ : List Char) (inner : Condition)
    (rest rest₂ : List Char) (hpo : parse_or f cs₂ = .ok (inner, rest))
    (hskip : skip_whitespace rest = ')' :: rest₂) :
    parse_primary (f + 1) ('(' :: cs₂) = .ok (inner, rest₂) := by
  simp only [parse_primary, skipWs_cons_of_not_ws '(' cs₂ (by decide), hpo, hskip]

theorem parse_and_step (f : Nat) (cs : List Char) (lhs : Condition) (rest : List Char)
    (hpn : parse_not f cs = .ok (lhs, rest)) :
    parse_and (f + 1) cs = and_loop f lhs rest := by
  simp only [parse_and, hpn]

theorem and_loop_take (f : Nat) (lhs : Condition) (rest cs₂ : List Char)
    (rhs : Condition) (rest₂ : List Char) (hskip : skip_whitespace rest = '&' :: cs₂)
    (hpn : parse_not f cs₂ = .ok (rhs, rest₂)) :
    and_loop (f + 1) lhs rest = and_loop f (.And lhs rhs) rest₂ := by
  simp only [and_loop, hskip, hpn]

theorem and_loop_stop (f : Nat) (lhs : Condition) (rest : List Char)
    (h : ∀ cs₂, skip_whitespace rest ≠ '&' :: cs₂) :
    and_loop (f + 1) lhs rest = .ok (lhs, skip_whitespace rest) := by
  simp only [and_loop]

theorem parse_or_step (f : Nat) (cs : List Char) (lhs : Condition) (rest : List Char)
    (hpa : parse_and f cs = .ok (lhs, rest)) :
    parse_or (f + 1) cs = or_loop f lhs rest := by
  simp only [parse_or, hpa]

theorem or_loop_take (f : Nat) (lhs : Condition) (rest cs₂ : List Char)
    (rhs : Condition) (rest₂ : List Char) (hskip : skip_whitespace rest = '|' :: cs₂)
    (hpa : parse_and f cs₂ = .ok (rhs, rest₂)) :
    or_loop (f + 1) lhs rest = or_loop f (.Or lhs rhs) rest₂ := by
  simp only [or_loop, hskip, hpa]

theorem or_loop_stop (f : Nat) (lhs : Condition) (rest : List Char)
    (h : ∀ cs₂, skip_whitespace rest ≠ '|' :: cs₂) :
    or_loop (f + 1) lhs rest = .ok (lhs, skip_whitespace rest) := by
  simp only [or_loop]

/-- Parsing the rendering of a valid tree at the `not` level consumes exactly
the rendering: the remaining input is untouched. -/
theorem parse_not_render (c : Condition) : ∀ (fuel : Nat) (cs rest : List Char),
    validCond c = true → 9 * size c + 1 ≤ fuel →
    skip_whitespace cs = render c ++ rest → boundary rest →
    parse_not fuel cs = .ok (c, rest) := by
  induction c with
  | Fact s =>
    intro fuel cs rest hv hfuel hskip hb
    simp only [validCond, Bool.and_eq_true, Bool.not_eq_true'] at hv
    obtain ⟨hne, hall⟩ := hv
    obtain ⟨f, rfl⟩ : ∃ k, fuel = k + 1 := ⟨fuel - 1, by simp only [size] at hfuel; omega⟩
    obtain ⟨f₁, rfl⟩ : ∃ k, f = k + 1 := ⟨f - 1, by simp only [size] at hfuel; omega⟩
    simp only [render] at hskip
    rcases hd : s.data with _ | ⟨dh, dt⟩
    · rw [hd] at hne; simp at hne
    · have hfc : factChar dh = true := by
        have h' := hall
        rw [hd] at h'
        simp only [List.all_cons, Bool.and_eq_true] at h'
        exact h'.1
      obtain ⟨-, -, -, -, hbang, hparen, -, -, -⟩ := factChar_spec dh hfc
      rw [hd] at hskip
      simp only [List.cons_append] at hskip
      rw [parse_not_step_head (f₁ + 1) cs dh (dt ++ rest) hskip hbang]
      rw [parse_primary_step_fact f₁ dh (dt ++ rest) (factChar_not_ws dh hfc) hparen]
      have hpf := parse_fact_render s hne hall rest hb
      rw [hd] at hpf
      simp only [List.cons_append] at hpf
      exact hpf
  | Not inner ih =>
    intro fuel cs rest hv hfuel hskip hb
    simp only [validCond] at hv
    obtain ⟨f, rfl⟩ : ∃ k, fuel = k + 1 := ⟨fuel - 1, by simp only [size] at hfuel; omega⟩
    simp only [render, List.cons_append] at hskip
    have hrec : parse_not f (render inner ++ rest) = .ok (inner, rest) :=
      ih f (render inner ++ rest) rest hv (by simp only [size] at hfuel; omega)
        (skipWs_render inner hv rest) hb
    exact parse_not_step_bang f cs (render inner ++ rest) inner rest hskip hrec
  | And lhs rhs ihl ihr =>
    intro fuel cs rest hv hfuel hskip hb
    simp only [validCond, Bool.and_eq_true] at hv
    obtain ⟨hvl, hvr⟩ := hv
    have hsl := size_pos lhs
    have hsr := size_pos rhs
    have hfuel' : 9 * (1 + size lhs + size rhs) + 1 ≤ fuel := by
      simpa only [size] using hfuel
    obtain ⟨n5, rfl⟩ : ∃ k, fuel = k + 1 := ⟨fuel - 1, by omega⟩
    obtain ⟨n4, rfl⟩ : ∃ k, n5 = k + 1 := ⟨n5 - 1, by omega⟩
    obtain ⟨n3, rfl⟩ : ∃ k, n4 = k + 1 := ⟨n4 - 1, by omega⟩
    obtain ⟨n2, rfl⟩ : ∃ k, n3 = k + 1 := ⟨n3 - 1, by omega⟩
    obtain ⟨n1, rfl⟩ : ∃ k, n2 = k + 1 := ⟨n2 - 1, by omega⟩
    obtain ⟨n0, rfl⟩ : ∃ k, n1 = k + 1 := ⟨n1 - 1, by omega⟩
    simp only [render, List.cons_append, List.append_assoc, List.singleton_append] at hskip
    have hstopr : skip_whitespace (')' :: rest) = ')' :: rest :=
      skipWs_cons_of_not_ws ')' rest (by decide)
    have h_l : parse_not (n0 + 1 + 1) (render lhs ++ ' ' :: '&' :: ' ' :: (render rhs ++ ')' :: rest))
        = .ok (lhs, ' ' :: '&' :: ' ' :: (render rhs ++ ')' :: rest)) :=
      ihl (n0 + 1 + 1) _ _ hvl (by omega) (skipWs_render lhs hvl _)
        (by simp only [boundary]; decide)
    have h_r : parse_not (n0 + 1) (' ' :: (render rhs ++ ')' :: rest)) = .ok (rhs, ')' :: rest) :=
      ihr (n0 + 1) _ _ hvr (by omega)
        (by rw [skipWs_cons_of_ws ' ' _ (by decide)]; exact skipWs_render rhs hvr _)
        (by simp only [boundary]; decide)
    have hskipamp : skip_whitespace (' ' :: '&' :: ' ' :: (render rhs ++ ')' :: rest))
        = '&' :: (' ' :: (render rhs ++ ')' :: rest)) := by
      rw [skipWs_cons_of_ws ' ' _ (by decide)]
      exact skipWs_cons_of_not_ws '&' _ (by decide)
    have h_and : parse_and (n0 + 1 + 1 + 1)
        (render lhs ++ ' ' :: '&' :: ' ' :: (render rhs ++ ')' :: rest))
        = .ok (.And lhs rhs, ')' :: rest) := by
      rw [parse_and_step (n0 + 1 + 1) _ lhs _ h_l]
      rw [and_loop_take (n0 + 1) lhs _ _ rhs _ hskipamp h_r]
      rw [and_loop_stop n0 _ _ (by
        intro cs₂ heq
        rw [hstopr] at heq
        injection heq with h1 _
        exact absurd h1 (by decide))]
      rw [hstopr]
    have h_or : parse_or (n0 + 1 + 1 + 1 + 1)
        (render lhs ++ ' ' :: '&' :: ' ' :: (render rhs ++ ')' :: rest))
        = .ok (.And lhs rhs, ')' :: rest) := by
      rw [parse_or_step (n0 + 1 + 1 + 1) _ _ _ h_and]
      rw [or_loop_stop (n0 + 1 + 1) _ _ (by
        intro cs₂ heq
        rw [hstopr] at heq
        injection heq with h1 _
        exact absurd h1 (by decide))]
      rw [hstopr]
    rw [parse_not_step_head (n0 + 1 + 1 + 1 + 1 + 1) cs '(' _ hskip (by decide)]
    exact parse_primary_step_paren (n0 + 1 + 1 + 1 + 1) _ (.And lhs rhs) (')' :: rest) rest
      h_or hstopr
  | Or lhs rhs ihl ihr =>
    intro fuel cs rest hv hfuel hskip hb
    simp only [validCond, Bool.and_eq_true] at hv
    obtain ⟨hvl, hvr⟩ := hv
    have hsl := size_pos lhs
    have hsr := size_pos rhs
    have hfuel' : 9 * (1 + size lhs + size rhs) + 1 ≤ fuel := by
      simpa only [size] using hfuel
    obtain ⟨n5, rfl⟩ : ∃ k, fuel = k + 1 := ⟨fuel - 1, by omega⟩
    obtain ⟨n4, rfl⟩ : ∃ k, n5 = k + 1 := ⟨n5 - 1, by omega⟩
    obtain ⟨n3, rfl⟩ : ∃ k, n4 = k + 1 := ⟨n4 - 1, by omega⟩
    obtain ⟨n2, rfl⟩ : ∃ k, n3 = k + 1 := ⟨n3 - 1, by omega⟩
    obtain ⟨n1, rfl⟩ : ∃ k, n2 = k + 1 := ⟨n2 - 1, by omega⟩
    obtain ⟨n0, rfl⟩ : ∃ k, n1 = k + 1 := ⟨n1 - 1, by omega⟩
    simp only [render, List.cons_append, List.append_assoc, List.singleton_append] at hskip
    have hstopr : skip_whitespace (')' :: rest) = ')' :: rest :=
      skipWs_cons_of_not_ws ')' rest (by decide)
    have h_l : parse_not (n0 + 1 + 1) (render lhs ++ ' ' :: '|' :: ' ' :: (render rhs ++ ')' :: rest))
        = .ok (lhs, ' ' :: '|' :: ' ' :: (render rhs ++ ')' :: rest)) :=
      ihl (n0 + 1 + 1) _ _ hvl (by omega) (skipWs_render lhs hvl _)
        (by simp only [boundary]; decide)
    have h_r : parse_not (n0 + 1) (' ' :: (render rhs ++ ')' :: rest)) = .ok (rhs, ')' :: rest) :=
      ihr (n0 + 1) _ _ hvr (by omega)
        (by rw [skipWs_cons_of_ws ' ' _ (by decide)]; exact skipWs_render rhs hvr _)
        (by simp only [boundary]; decide)
    have hskipbar : skip_whitespace (' ' :: '|' :: ' ' :: (render rhs ++ ')' :: rest))
        = '|' :: (' ' :: (render rhs ++ ')' :: rest)) := by
      rw [skipWs_cons_of_ws ' ' _ (by decide)]
      exact skipWs_cons_of_not_ws '|' _ (by decide)
    have h_and : parse_and (n0 + 1 + 1 + 1)
        (render lhs ++ ' ' :: '|' :: ' ' :: (render rhs ++ ')' :: rest))
        = .ok (lhs, '|' :: (' ' :: (render rhs ++ ')' :: rest))) := by
      rw [parse_and_step (n0 + 1 + 1) _ lhs _ h_l]
      rw [and_loop_stop (n0 + 1) _ _ (by
        intro cs₂ heq
        rw [hskipbar] at heq
        injection heq with h1 _
        exact absurd h1 (by decide))]
      rw [hskipbar]
    have h_and_r : parse_and (n0 + 1 + 1) (' ' :: (render rhs ++ ')' :: rest))
        = .ok (rhs, ')' :: rest) := by
      rw [parse_and_step (n0 + 1) _ rhs _ h_r]
      rw [and_loop_stop n0 _ _ (by
        intro cs₂ heq
        rw [hstopr] at heq
        injection heq with h1 _
        exact absurd h1 (by decide))]
      rw [hstopr]
    have h_or : parse_or (n0 + 1 + 1 + 1 + 1)
        (render lhs ++ ' ' :: '|' :: ' ' :: (render rhs ++ ')' :: rest))
        = .ok (.Or lhs rhs, ')' :: rest) := by
      rw [parse_or_step (n0 + 1 + 1 + 1) _ _ _ h_and]
      rw [or_loop_take (n0 + 1 + 1) lhs _ _ rhs _
        (skipWs_cons_of_not_ws '|' _ (by decide)) h_and_r]
      rw [or_loop_stop (n0 + 1) _ _ (by
        intro cs₂ heq
        rw [hstopr] at heq
        injection heq with h1 _
        exact absurd h1 (by decide))]
      rw [hstopr]
    rw [parse_not_step_head (n0 + 1 + 1 + 1 + 1 + 1) cs '(' _ hskip (by decide)]
    exact parse_primary_step_paren (n0 + 1 + 1 + 1 + 1) _ (.Or lhs rhs) (')' :: rest) rest
      h_or hstopr

/-- Parsing the rendering of a valid tree at the top (`or`) level. -/
theorem parse_or_render (c : Condition) (hv : validCond c = true) :
    ∀ (fuel : Nat) (cs rest : List Char), 9 * size c + 3 ≤ fuel →
    skip_whitespace cs = render c ++ rest → boundary rest →
    (∀ cs₂, skip_whitespace rest ≠ '&' :: cs₂) →
    (∀ cs₂, skip_whitespace rest ≠ '|' :: cs₂) →
    parse_or fuel cs = .ok (c, skip_whitespace rest) := by
  intro fuel cs rest hfuel hskip hb hamp hbar
  obtain ⟨a, rfl⟩ : ∃ k, fuel = k + 1 := ⟨fuel - 1, by omega⟩
  obtain ⟨b, rfl⟩ : ∃ k, a = k + 1 := ⟨a - 1, by omega⟩
  obtain ⟨d, rfl⟩ : ∃ k, b = k + 1 := ⟨b - 1, by omega⟩
  have h_n : parse_not (d + 1) cs = .ok (c, rest) :=
    parse_not_render c (d + 1) cs rest hv (by omega) hskip hb
  have h_and : parse_and (d + 1 + 1) cs = .ok (c, skip_whitespace rest) := by
    rw [parse_and_step (d + 1) _ c _ h_n]
    exact and_loop_stop d c rest hamp
  rw [parse_or_step (d + 1 + 1) _ _ _ h_and]
  rw [or_loop_stop (d + 1) _ _ (by
    intro cs₂ heq
    rw [skipWs_idem] at heq
    exact hbar cs₂ heq)]
  rw [skipWs_idem]

theorem render_length_ge_size (c : Condition) (hv : validCond c = true) :
    size c ≤ (render c).length := by
  induction c with
  | Fact s =>
    simp only [validCond, Bool.and_eq_true, Bool.not_eq_true'] at hv
    have hne : s.data ≠ [] := by
      intro h
      rw [h] at hv
      simp at hv
    have := List.length_pos.2 hne
    simp only [size, render]
    omega
  | And lhs rhs ihl ihr =>
    simp only [validCond, Bool.and_eq_true] at hv
    have h1 := ihl hv.1
    have h2 := ihr hv.2
    simp only [size, render, List.length_cons, List.length_append]
    omega
  | Or lhs rhs ihl ihr =>
    simp only [validCond, Bool.and_eq_true] at hv
    have h1 := ihl hv.1
    have h2 := ihr hv.2
    simp only [size, render, List.length_cons, List.length_append]
    omega
  | Not inner ih =>
    simp only [validCond] at hv
    have h1 := ih hv
    simp only [size, render, List.length_cons]
    omega

/-- `FromStr` returns the leading expression when the recursive descent
succeeds, whatever remains. -/
theorem from_str_ok (s : String) (c : Condition) (rest : List Char)
    (h : parse_or (9 * s.length + 9) s.data = .ok (c, rest)) : from_str s = .ok c := by
  simp [from_str, h]

/-- C4: round-trip — for every condition tree whose atoms are non-empty
strings of alphanumeric/underscore characters, parsing the `Display`
rendering (explicit parentheses for AND/OR, prefix `!` for NOT, bare fact
names) returns a structurally equal tree:
`from_str (to_string c) = Ok c`. -/
theorem parse_render_roundtrip (c : Condition) (hv : validCond c = true) :
    from_str (Condition.asString c) = .ok c := by
  have hlen := render_length_ge_size c hv
  have h := parse_or_render c hv (9 * (Condition.asString c).length + 9) (render c) []
    (by
      have hslen : (Condition.asString c).length = (render c).length := rfl
      omega)
    (by simpa using skipWs_render c hv [])
    (by simp [boundary])
    (fun cs₂ hx => by simp [skip_whitespace] at hx)
    (fun cs₂ hx => by simp [skip_whitespace] at hx)
  have hnil : skip_whitespace ([] : List Char) = [] := rfl
  rw [hnil] at h
  exact from_str_ok (Condition.asString c) c [] h

/-- Witness for C4 at a concrete tree: `(fact1 & (fact2 | !fact3))` parses
back to itself. -/
theorem parse_render_roundtrip_witness :
    from_str (Condition.asString
        (.And (.Fact "fact1") (.Or (.Fact "fact2") (.Not (.Fact "fact3")))))
      = .ok (.And (.Fact "fact1") (.Or (.Fact "fact2") (.Not (.Fact "fact3")))) :=
  parse_render_roundtrip
    (.And (.Fact "fact1") (.Or (.Fact "fact2") (.Not (.Fact "fact3")))) (by decide)

/-- Witness for C9 at a concrete input. -/
theorem working_memory_monotone_witness :
    "fact1" ∈ (Facts.deduce ["fact1"] [⟨.Fact "fact1", ["fact2"]⟩]).2 ∧
    "fact1" ∈ (Facts.step_forward ["fact1"] [⟨.Fact "fact1", ["fact2"]⟩]).2 :=
  ⟨(working_memory_monotone ["fact1"] [⟨.Fact "fact1", ["fact2"]⟩]).1 "fact1" (by decide),
   (working_memory_monotone ["fact1"] [⟨.Fact "fact1", ["fact2"]⟩]).2.1 ["fact1"] "fact1"
     (by decide)⟩

end Expert
